import Mathlib

/-!
Shallow embedding of `src/rbo.py` (class `RankingSimilarity`): the fixed-depth
rank-biased overlap `rbo` and the fully extrapolated `rbo_ext`.

Python floats are modelled by exact rationals (`ℚ`); Python run-time failures
(`AssertionError` from `assert`, `IndexError` from out-of-range list access,
`UnboundLocalError` from reading a never-assigned local) are modelled by an
explicit error type, and each fallible entry point returns `Except`.
The progress print-out (`ProgressPrintOut`) is purely observational and is
omitted.
-/

set_option linter.unusedSectionVars false

namespace RBO

/-- Run-time failures the Python code can raise. -/
inductive PyError where
  | assertionError
  | indexError
  | unboundLocalError
deriving DecidableEq, Repr

variable {α : Type} [DecidableEq α] [Inhabited α]

/-- Constructor checks of `RankingSimilarity.__init__` (src/rbo.py lines 46-53):
each list must be duplicate-free, otherwise the `assert` fails. -/
def RankingSimilarity.init (S T : List α) : Except PyError (List α × List α) :=
  if S.Nodup ∧ T.Nodup then .ok (S, T) else .error .assertionError

/-- Loop-body increment `tmp` of `RankingSimilarity.rbo` (src/rbo.py lines
150-159): at depth `d ≥ 1`, before the running sets are updated, count whether
`S[d]` is already in `T`'s running set (`T[0..d-1]`), whether `T[d]` is already
in `S`'s running set (`S[0..d-1]`), and whether `S[d] == T[d]`. -/
def tmp (S T : List α) (d : ℕ) : ℕ :=
  (if S.getD d default ∈ T.take d then 1 else 0) +
  (if T.getD d default ∈ S.take d then 1 else 0) +
  (if S.getD d default = T.getD d default then 1 else 0)

/-- Agreement array `A` of `RankingSimilarity.rbo` (src/rbo.py lines 143, 162):
`A[0]` is the rank-0 match indicator and `A[d] = (A[d-1]*d + tmp)/(d+1)`. -/
def A (S T : List α) : ℕ → ℚ
  | 0 => if S.getD 0 default = T.getD 0 default then 1 else 0
  | d + 1 => (A S T d * ((d : ℚ) + 1) + (tmp S T (d + 1) : ℚ)) / ((d : ℚ) + 2)

/-- Weight vector of `RankingSimilarity.rbo` (src/rbo.py lines 136-140):
all ones when `p == 1`, else `(1-p)*p^d`. -/
def weights (p : ℚ) (d : ℕ) : ℚ :=
  if p = 1 then 1 else (1 - p) * p ^ d

/-- Average-overlap array `AO` of `RankingSimilarity.rbo` (src/rbo.py lines
144, 165-168): `AO[0] = weights[0]` on a rank-0 match else `0`; at `d ≥ 1` a
cumulative mean of `A` when `p == 1`, else `AO[d-1] + weights[d]*A[d]`. -/
def AO (S T : List α) (p : ℚ) : ℕ → ℚ
  | 0 => if S.getD 0 default = T.getD 0 default then weights p 0 else 0
  | d + 1 =>
    if p = 1 then (AO S T p d * ((d : ℚ) + 1) + A S T (d + 1)) / ((d : ℚ) + 2)
    else AO S T p d + weights p (d + 1) * A S T (d + 1)

/-- Effective evaluation depth of `RankingSimilarity.rbo` (src/rbo.py lines
130-132): `k = min(len(S), len(T), k)`, with `k=None` meaning unbounded. -/
def kEff (S T : List α) (k : Option ℕ) : ℕ :=
  match k with
  | none => min S.length T.length
  | some j => min (min S.length T.length) j

/-- Fixed-depth RBO, `RankingSimilarity.rbo` (src/rbo.py lines 96-177).
Failure modes in source order: the `assert(0.0 < p < 1.0)` on the weighted
branch (line 139), the `S[0]`/`T[0]` access on an empty list (line 142), and
the `A[0]` store into a length-0 array when the effective depth is 0
(line 143). On success it returns `AO[-1] + A[-1]*p**k` when `ext and p < 1`,
else `AO[-1]`. -/
def rbo (S T : List α) (k : Option ℕ) (p : ℚ) (ext : Bool) : Except PyError ℚ :=
  if p ≠ 1 ∧ ¬(0 < p ∧ p < 1) then .error .assertionError
  else if S.length = 0 ∨ T.length = 0 then .error .indexError
  else if kEff S T k = 0 then .error .indexError
  else if ext ∧ p < 1 then
    .ok (AO S T p (kEff S T k - 1) + A S T (kEff S T k - 1) * p ^ kEff S T k)
  else .ok (AO S T p (kEff S T k - 1))

/-- Loop-body overlap increment of `RankingSimilarity.rbo_ext` (src/rbo.py
lines 212-241). For `d < s` the running sets are updated *before* the
membership tests (lines 214-215), so the tests look at prefixes of length
`d+1`; the `else` guard makes the equal case exclusive. For `d ≥ s` the short
list's running set is frozen at all of `Sh`. -/
def incrExt (Sh L : List α) (s d : ℕ) : ℕ :=
  if d < s then
    if Sh.getD d default = L.getD d default then 1
    else
      (if Sh.getD d default ∈ L.take (d + 1) then 1 else 0) +
      (if L.getD d default ∈ Sh.take (d + 1) then 1 else 0)
  else if L.getD d default ∈ Sh then 1 else 0

/-- Raw overlap array `X` of `RankingSimilarity.rbo_ext` (src/rbo.py lines
201, 231, 243): `X[0]` is the rank-0 match indicator and
`X[d] = X[d-1] + overlap_incr`. -/
def Xext (Sh L : List α) (s : ℕ) : ℕ → ℕ
  | 0 => if Sh.getD 0 default = L.getD 0 default then 1 else 0
  | d + 1 => Xext Sh L s d + incrExt Sh L s (d + 1)

/-- Agreement array `A` of `RankingSimilarity.rbo_ext` (src/rbo.py lines 202,
232, 244): `A[0] = X[0]`; for `1 ≤ d < s`, `A[d] = 2*X[d]` over the sum of the
two running-set sizes (the sets hold the length-`d+1` prefixes); for `d ≥ s`,
`A[d] = X[d]/(d+1)`. -/
def Aext (Sh L : List α) (s d : ℕ) : ℚ :=
  if d = 0 then (Xext Sh L s 0 : ℚ)
  else if d < s then
    2 * (Xext Sh L s d : ℚ) /
      (((Sh.take (d + 1)).toFinset.card : ℚ) + ((L.take (d + 1)).toFinset.card : ℚ))
  else (Xext Sh L s d : ℚ) / ((d : ℚ) + 1)

/-- Weighted-overlap array `rbo` of `RankingSimilarity.rbo_ext` (src/rbo.py
lines 203, 233, 245): `rbo[0] = (1-p)*A[0]` and
`rbo[d] = rbo[d-1] + (1-p)*p^d*A[d]`. -/
def rboArr (Sh L : List α) (s : ℕ) (p : ℚ) : ℕ → ℚ
  | 0 => (1 - p) * Aext Sh L s 0
  | d + 1 => rboArr Sh L s p d + (1 - p) * p ^ (d + 1) * Aext Sh L s (d + 1)

/-- Accumulated `disjoint` correction of `RankingSimilarity.rbo_ext`
(src/rbo.py lines 208, 248): each loop index `d ≥ s` adds
`(1-p)*p^d * (X[s-1]*(d+1-s)/(d+1)/s)`. -/
def disjointAcc (Sh L : List α) (s : ℕ) (p : ℚ) : ℕ → ℚ
  | 0 => 0
  | d + 1 =>
    disjointAcc Sh L s p d +
      if d + 1 < s then 0
      else (1 - p) * p ^ (d + 1) *
        ((Xext Sh L s (s - 1) : ℚ) * (((d : ℚ) + 2) - (s : ℚ)) / ((d : ℚ) + 2) / (s : ℚ))

/-- Last assigned `ext_term` of `RankingSimilarity.rbo_ext` (src/rbo.py lines
235, 249), as a function of the loop index `d` it was assigned at:
`A[d]*p^(d+1)` while `d < s`, else `((X[d]-X[s-1])/(d+1) + X[s-1]/s)*p^(d+1)`. -/
def extTerm (Sh L : List α) (s : ℕ) (p : ℚ) (d : ℕ) : ℚ :=
  if d < s then Aext Sh L s d * p ^ (d + 1)
  else
    (((Xext Sh L s d : ℚ) - (Xext Sh L s (s - 1) : ℚ)) / ((d : ℚ) + 1) +
      (Xext Sh L s (s - 1) : ℚ) / (s : ℚ)) * p ^ (d + 1)

/-- Body of `RankingSimilarity.rbo_ext` (src/rbo.py lines 193-251) once the
short list `Sh` and the long list `L` are identified. Failure modes: the
`S[0]`/`L[0]` access with an empty short list (line 200), and the read of the
never-assigned `ext_term` at the return (line 251) when the depth loop
`range(1, l)` is empty, i.e. when the longer list has length 1. Otherwise it
returns `rbo[-1] + disjoint + ext_term` with `ext_term` as last assigned at
loop index `l-1`. -/
def extCompute (Sh L : List α) (p : ℚ) : Except PyError ℚ :=
  if Sh.length = 0 then .error .indexError
  else if L.length ≤ 1 then .error .unboundLocalError
  else
    .ok (rboArr Sh L Sh.length p (L.length - 1) +
      disjointAcc Sh L Sh.length p (L.length - 1) +
      extTerm Sh L Sh.length p (L.length - 1))

/-- Fully extrapolated RBO, `RankingSimilarity.rbo_ext` (src/rbo.py lines
179-251). The longer list is `L`, the shorter `Sh`; on equal lengths the pair
`(self.S, self.T)` is taken as `(Sh, L)` (line 188 uses a strict `>`). Note
that no precondition on `p` is checked anywhere on this path. -/
def rbo_ext (S T : List α) (p : ℚ) : Except PyError ℚ :=
  if T.length < S.length then extCompute T S p else extCompute S T p

/-- Specification-side definition (not from the code): the size of the
intersection of the two depth-`n` prefixes, "the size of the intersection of
the two depth-(d+1) prefixes" against which the agreement ratios produced by
the `A` recurrence are compared. -/
def interCard (S T : List α) (n : ℕ) : ℕ :=
  ((S.take n).toFinset ∩ (T.take n).toFinset).card

/-! ### Symmetry of the fixed-depth path -/

theorem tmp_comm (S T : List α) (d : ℕ) : tmp S T d = tmp T S d := by
  simp only [tmp, eq_comm]
  omega

theorem A_comm (S T : List α) (d : ℕ) : A S T d = A T S d := by
  induction d with
  | zero => simp only [A, eq_comm]
  | succ d ih => simp only [A, ih, tmp_comm]

theorem AO_comm (S T : List α) (p : ℚ) (d : ℕ) : AO S T p d = AO T S p d := by
  induction d with
  | zero => simp only [AO, eq_comm]
  | succ d ih => simp only [AO, ih, A_comm]

theorem kEff_comm (S T : List α) (k : Option ℕ) : kEff S T k = kEff T S k := by
  cases k <;> simp [kEff, min_comm S.length T.length]

theorem rbo_comm (S T : List α) (k : Option ℕ) (p : ℚ) (ext : Bool) :
    rbo S T k p ext = rbo T S k p ext := by
  simp only [rbo, kEff_comm S T k, AO_comm S T p, A_comm S T, or_comm]

/-! ### Symmetry of the extrapolated path -/

theorem incrExt_comm (S T : List α) (s d : ℕ) (h : d < s) :
    incrExt S T s d = incrExt T S s d := by
  unfold incrExt
  rw [if_pos h, if_pos h]
  by_cases hEq : S.getD d default = T.getD d default
  · rw [if_pos hEq, if_pos hEq.symm]
  · rw [if_neg hEq,
      if_neg (fun hc : T.getD d default = S.getD d default => hEq hc.symm),
      Nat.add_comm]

theorem Xext_comm (S T : List α) (s d : ℕ) (h : d < s) :
    Xext S T s d = Xext T S s d := by
  induction d with
  | zero => simp only [Xext, eq_comm]
  | succ d ih =>
    simp only [Xext, ih (Nat.lt_of_succ_lt h), incrExt_comm S T s (d + 1) h]

theorem Aext_comm (S T : List α) (s d : ℕ) (h : d < s) :
    Aext S T s d = Aext T S s d := by
  rcases Nat.eq_zero_or_pos d with h0 | h0
  · subst h0
    simp [Aext, Xext_comm S T s 0 h]
  · simp only [Aext, if_neg (Nat.pos_iff_ne_zero.mp h0), if_pos h,
      Xext_comm S T s d h,
      add_comm (((S.take (d + 1)).toFinset.card : ℚ)) (((T.take (d + 1)).toFinset.card : ℚ))]

theorem rboArr_comm (S T : List α) (s : ℕ) (p : ℚ) (d : ℕ) (h : d < s) :
    rboArr S T s p d = rboArr T S s p d := by
  induction d with
  | zero => simp only [rboArr, Aext_comm S T s 0 h]
  | succ d ih =>
    simp only [rboArr, ih (Nat.lt_of_succ_lt h), Aext_comm S T s (d + 1) h]

theorem disjointAcc_eq_zero (S T : List α) (s : ℕ) (p : ℚ) (d : ℕ) (h : d < s) :
    disjointAcc S T s p d = 0 := by
  induction d with
  | zero => rfl
  | succ d ih =>
    simp only [disjointAcc, ih (Nat.lt_of_succ_lt h), if_pos h, add_zero, zero_add]

theorem extTerm_comm (S T : List α) (s : ℕ) (p : ℚ) (d : ℕ) (h : d < s) :
    extTerm S T s p d = extTerm T S s p d := by
  simp only [extTerm, if_pos h, Aext_comm S T s d h]

theorem extCompute_comm (S T : List α) (p : ℚ) (hEq : S.length = T.length) :
    extCompute S T p = extCompute T S p := by
  unfold extCompute
  rw [hEq]
  by_cases h0 : T.length = 0
  · simp [h0]
  · by_cases h1 : T.length ≤ 1
    · simp [h0, h1]
    · have hd : T.length - 1 < T.length := by omega
      rw [if_neg h0, if_neg h1, if_neg h0, if_neg h1,
        rboArr_comm S T T.length p (T.length - 1) hd,
        disjointAcc_eq_zero S T T.length p (T.length - 1) hd,
        disjointAcc_eq_zero T S T.length p (T.length - 1) hd,
        extTerm_comm S T T.length p (T.length - 1) hd]

theorem rbo_ext_comm (S T : List α) (p : ℚ) : rbo_ext S T p = rbo_ext T S p := by
  unfold rbo_ext
  rcases lt_trichotomy S.length T.length with hlt | hEq | hgt
  · rw [if_neg (by omega), if_pos hlt]
  · rw [if_neg (by omega), if_neg (by omega), extCompute_comm S T p hEq]
  · rw [if_pos hgt, if_neg (by omega)]

/-! ### Prefix and nodup facts -/

theorem getD_not_mem_take_self {S : List α} (hS : S.Nodup) {d : ℕ} (h : d < S.length) :
    S.getD d default ∉ S.take d := by
  rw [List.getD_eq_getElem S default h]
  intro hmem
  rw [List.mem_take_iff_getElem] at hmem
  obtain ⟨i, hi, hEq⟩ := hmem
  have : i = d := (hS.getElem_inj_iff).mp hEq
  omega

theorem getD_mem_self {S : List α} {d : ℕ} (h : d < S.length) :
    S.getD d default ∈ S := by
  rw [List.getD_eq_getElem S default h]
  exact List.getElem_mem h

theorem kEff_le_left (S T : List α) (k : Option ℕ) : kEff S T k ≤ S.length := by
  cases k <;> simp only [kEff] <;> omega

theorem kEff_le_right (S T : List α) (k : Option ℕ) : kEff S T k ≤ T.length := by
  cases k <;> simp only [kEff] <;> omega

/-! ### Identical lists -/

theorem tmp_self {S : List α} (hS : S.Nodup) {d : ℕ} (h : d < S.length) :
    tmp S S d = 1 := by
  unfold tmp
  rw [if_neg (getD_not_mem_take_self hS h), if_pos rfl]

theorem A_self {S : List α} (hS : S.Nodup) {d : ℕ} (h : d < S.length) :
    A S S d = 1 := by
  induction d with
  | zero => simp [A]
  | succ d ih =>
    rw [A, ih (Nat.lt_of_succ_lt h), tmp_self hS h]
    have h2 : ((d : ℚ) + 2) ≠ 0 := by positivity
    field_simp
    ring

theorem AO_self_one {S : List α} (hS : S.Nodup) {d : ℕ} (h : d < S.length) :
    AO S S 1 d = 1 := by
  induction d with
  | zero => simp [AO, weights]
  | succ d ih =>
    rw [AO, if_pos rfl, ih (Nat.lt_of_succ_lt h), A_self hS h]
    have h2 : ((d : ℚ) + 2) ≠ 0 := by positivity
    field_simp
    ring

theorem AO_self_ne_one {S : List α} (hS : S.Nodup) {p : ℚ} (hp : p ≠ 1) {d : ℕ}
    (h : d < S.length) : AO S S p d = 1 - p ^ (d + 1) := by
  induction d with
  | zero => simp [AO, weights, hp]
  | succ d ih =>
    rw [AO, if_neg hp, ih (Nat.lt_of_succ_lt h), A_self hS h, weights, if_neg hp]
    ring

/-! ### Disjoint lists -/

theorem tmp_disjoint {S T : List α} (hdisj : ∀ x ∈ S, x ∉ T) {d : ℕ}
    (hdS : d < S.length) (hdT : d < T.length) : tmp S T d = 0 := by
  have h1 : S.getD d default ∉ T.take d := fun hmem =>
    hdisj _ (getD_mem_self hdS) (List.mem_of_mem_take hmem)
  have h2 : T.getD d default ∉ S.take d := fun hmem =>
    hdisj _ (List.mem_of_mem_take hmem) (getD_mem_self hdT)
  have h3 : S.getD d default ≠ T.getD d default := fun hEq =>
    hdisj _ (getD_mem_self hdS) (hEq ▸ getD_mem_self hdT)
  unfold tmp
  rw [if_neg h1, if_neg h2, if_neg h3]

theorem A_disjoint {S T : List α} (hdisj : ∀ x ∈ S, x ∉ T) {d : ℕ}
    (hdS : d < S.length) (hdT : d < T.length) : A S T d = 0 := by
  induction d with
  | zero =>
    have h3 : S.getD 0 default ≠ T.getD 0 default := fun hEq =>
      hdisj _ (getD_mem_self hdS) (hEq ▸ getD_mem_self hdT)
    rw [A, if_neg h3]
  | succ d ih =>
    rw [A, ih (Nat.lt_of_succ_lt hdS) (Nat.lt_of_succ_lt hdT),
      tmp_disjoint hdisj hdS hdT]
    norm_num

theorem AO_disjoint {S T : List α} (hdisj : ∀ x ∈ S, x ∉ T) (p : ℚ) {d : ℕ}
    (hdS : d < S.length) (hdT : d < T.length) : AO S T p d = 0 := by
  induction d with
  | zero =>
    have h3 : S.getD 0 default ≠ T.getD 0 default := fun hEq =>
      hdisj _ (getD_mem_self hdS) (hEq ▸ getD_mem_self hdT)
    rw [AO, if_neg h3]
  | succ d ih =>
    rw [AO, ih (Nat.lt_of_succ_lt hdS) (Nat.lt_of_succ_lt hdT),
      A_disjoint hdisj hdS hdT]
    by_cases hp : p = 1 <;> simp [hp]

/-! ### Claim theorems -/

/-- C1 (counterexample): for the identical duplicate-free lists `S = T = [0]`,
depth `k' = 1` and persistence `p = 1/2` with `ext = false` (all valid for
`rbo`), the fixed-depth computation returns `1/2`, not `1.0`. -/
theorem claim_C1_counterexample :
    rbo ([0] : List ℕ) [0] none (1/2) false = .ok (1/2) ∧
    rbo ([0] : List ℕ) [0] none (1/2) false ≠ .ok 1 := by
  constructor
  · norm_num [rbo, kEff, AO, A, weights, List.getD]
  · norm_num [rbo, kEff, AO, A, weights, List.getD]

/-- C1 (amended): for identical duplicate-free lists (any length ≥ 1) and any
valid depth, fixed-depth RBO returns exactly `1.0` when `p = 1`, and when
`0 < p < 1` with extrapolation enabled; with `0 < p < 1` and `ext = false` it
returns `1 - p^k'` instead. -/
theorem claim_C1 (S : List α) (k : Option ℕ) (p : ℚ) (ext : Bool)
    (hS : S.Nodup) (hk : 0 < kEff S S k)
    (hp : p = 1 ∨ (0 < p ∧ p < 1 ∧ ext = true)) :
    rbo S S k p ext = .ok 1 := by
  have hle := kEff_le_left S S k
  have hd : kEff S S k - 1 < S.length := by omega
  have hsucc : kEff S S k - 1 + 1 = kEff S S k := by omega
  rcases hp with hp1 | ⟨hp0, hp1, hext⟩
  · subst hp1
    rw [rbo, if_neg (by norm_num), if_neg (by omega), if_neg (by omega),
      if_neg (by norm_num), AO_self_one hS hd]
  · subst hext
    rw [rbo, if_neg (by rw [not_and_or]; right; simp [hp0, hp1]),
      if_neg (by omega), if_neg (by omega), if_pos ⟨rfl, hp1⟩,
      AO_self_ne_one hS (ne_of_lt hp1) hd, A_self hS hd, hsucc]
    rw [one_mul, sub_add_cancel]

/-- C1 (witness): the amended claim instantiated at `S = [0, 1]`, `k = None`,
`p = 1/2`, `ext = true`. -/
theorem claim_C1_witness :
    ([0, 1] : List ℕ).Nodup ∧ 0 < kEff ([0, 1] : List ℕ) [0, 1] none ∧
    rbo ([0, 1] : List ℕ) [0, 1] none (1/2) true = .ok 1 :=
  ⟨by decide, by decide,
    claim_C1 [0, 1] none (1/2) true (by decide) (by decide)
      (Or.inr ⟨by norm_num, by norm_num, rfl⟩)⟩

/-- C3 (counterexample): `rbo_ext` performs no validation of `p` at all: with
`p = 2`, which lies outside `(0, 1)`, the call on `S = T = [0, 1]` does not
fail but returns the value `1`. -/
theorem claim_C3_counterexample :
    rbo_ext ([0, 1] : List ℕ) [0, 1] 2 = .ok 1 ∧ ¬(0 < (2 : ℚ) ∧ (2 : ℚ) < 1) := by
  constructor
  · norm_num [rbo_ext, extCompute, rboArr, disjointAcc, extTerm, Aext, Xext,
      incrExt, List.getD]
  · norm_num

/-- C3 (amended): the fixed-depth `rbo` with `p ≠ 1` fails with the
parameter-validation error before any result is produced whenever `p` lies
outside the open interval `(0, 1)`; the extrapolated `rbo_ext` performs no
such validation. -/
theorem claim_C3 (S T : List α) (k : Option ℕ) (p : ℚ) (ext : Bool)
    (hp1 : p ≠ 1) (hp : ¬(0 < p ∧ p < 1)) :
    rbo S T k p ext = .error .assertionError := by
  rw [rbo, if_pos ⟨hp1, hp⟩]

/-- C3 (witness): the amended claim instantiated at `p = 2`. -/
theorem claim_C3_witness :
    (2 : ℚ) ≠ 1 ∧ ¬(0 < (2 : ℚ) ∧ (2 : ℚ) < 1) ∧
    rbo ([0] : List ℕ) [0] none 2 false = .error .assertionError :=
  ⟨by norm_num, by norm_num,
    claim_C3 [0] [0] none 2 false (by norm_num) (by norm_num)⟩

/-- C4: both RBO entry points are symmetric in their two input lists, for
every input (in particular for duplicate-free lists and valid parameters):
`rbo` and `rbo_ext` return identical results when `S` and `T` are swapped. -/
theorem claim_C4 :
    ∀ (β : Type) [DecidableEq β] [Inhabited β] (S T : List β) (k : Option ℕ)
      (p : ℚ) (ext : Bool),
      rbo S T k p ext = rbo T S k p ext ∧ rbo_ext S T p = rbo_ext T S p :=
  fun _ _ _ S T k p ext => ⟨rbo_comm S T k p ext, rbo_ext_comm S T p⟩

/-- C5: for `S = ['a','b','c','d','e']` and `T = ['e','d','c']`, the
fixed-depth computation at depth 3 with `p = 1` and `ext = false` returns
exactly `1/9` (agreement `A = [0, 0, 1/3]`, cumulative mean
`AO = [0, 0, 1/9]`). -/
theorem claim_C5 :
    rbo (['a', 'b', 'c', 'd', 'e'] : List Char) ['e', 'd', 'c'] (some 3) 1 false
      = .ok (1/9) ∧
    A (['a', 'b', 'c', 'd', 'e'] : List Char) ['e', 'd', 'c'] 2 = 1/3 := by
  constructor
  · norm_num +decide [rbo, kEff, AO, A, tmp, weights, List.getD]
  · norm_num +decide [A, tmp, List.getD]

/-- C6: for non-empty lists with disjoint element sets, fixed-depth RBO with
`ext = false` returns exactly `0` at every valid depth and every valid `p`,
and every agreement entry `A[d]` and cumulative entry `AO[d]` is zero. -/
theorem claim_C6 (S T : List α) (k : Option ℕ) (p : ℚ)
    (hdisj : ∀ x ∈ S, x ∉ T) (hk : 0 < kEff S T k)
    (hp : p = 1 ∨ (0 < p ∧ p < 1)) :
    rbo S T k p false = .ok 0 ∧
    ∀ d, d < min S.length T.length → A S T d = 0 ∧ AO S T p d = 0 := by
  have hleS := kEff_le_left S T k
  have hleT := kEff_le_right S T k
  have hdS : kEff S T k - 1 < S.length := by omega
  have hdT : kEff S T k - 1 < T.length := by omega
  have hpn : ¬(p ≠ 1 ∧ ¬(0 < p ∧ p < 1)) := by
    rcases hp with hp | hp
    · simp [hp]
    · simp [hp]
  refine ⟨?_, fun d hd => ⟨A_disjoint hdisj (by omega) (by omega),
    AO_disjoint hdisj p (by omega) (by omega)⟩⟩
  rw [rbo, if_neg hpn, if_neg (by omega), if_neg (by omega),
    if_neg (by simp), AO_disjoint hdisj p hdS hdT]

/-- C6 (witness): instantiated at the disjoint lists `[0]` and `[1]` with
`k = None` and `p = 1`. -/
theorem claim_C6_witness :
    (∀ x ∈ ([0] : List ℕ), x ∉ ([1] : List ℕ)) ∧
    0 < kEff ([0] : List ℕ) [1] none ∧
    rbo ([0] : List ℕ) [1] none 1 false = .ok 0 :=
  ⟨by decide, by decide,
    (claim_C6 [0] [1] none 1 (by decide) (by decide) (Or.inl rfl)).1⟩

/-- C8: whenever the effective depth `k' = min(len(S), len(T), k)` resolves to
zero (in particular when an input list is empty or `k = 0` is requested), the
fixed-depth computation fails and produces no result. -/
theorem claim_C8 (S T : List α) (k : Option ℕ) (p : ℚ) (ext : Bool)
    (h : kEff S T k = 0) : ∃ e, rbo S T k p ext = .error e := by
  by_cases hp : p ≠ 1 ∧ ¬(0 < p ∧ p < 1)
  · exact ⟨.assertionError, by rw [rbo, if_pos hp]⟩
  · by_cases h0 : S.length = 0 ∨ T.length = 0
    · exact ⟨.indexError, by rw [rbo, if_neg hp, if_pos h0]⟩
    · exact ⟨.indexError, by rw [rbo, if_neg hp, if_neg h0, if_pos h]⟩

/-- C8 (witness): instantiated at an empty first list. -/
theorem claim_C8_witness :
    kEff ([] : List ℕ) [0] none = 0 ∧
    ∃ e, rbo ([] : List ℕ) [0] none 1 false = .error e :=
  ⟨by decide, claim_C8 [] [0] none 1 false (by decide)⟩

/-- C10: when both input lists have length 1, the depth loop of `rbo_ext`
never runs, so the local `ext_term` used by the return expression is never
assigned and the call fails with the unbound-local error instead of returning
a score; the longer list must have length at least 2 for `rbo_ext` to return. -/
theorem claim_C10 (S T : List α) (p : ℚ) (hS : S.length = 1) (hT : T.length = 1) :
    rbo_ext S T p = .error .unboundLocalError := by
  rw [rbo_ext, if_neg (by omega)]
  unfold extCompute
  rw [if_neg (by omega), if_pos (by omega)]

/-- C10 (witness): instantiated at `S = [0]`, `T = [1]`, `p = 49/50`. -/
theorem claim_C10_witness :
    ([0] : List ℕ).length = 1 ∧ ([1] : List ℕ).length = 1 ∧
    rbo_ext ([0] : List ℕ) [1] (49/50) = .error .unboundLocalError :=
  ⟨rfl, rfl, claim_C10 [0] [1] (49/50) rfl rfl⟩

/-! ### The agreement recurrence computes prefix-intersection ratios -/

theorem toFinset_take_succ {S : List α} {d : ℕ} (h : d < S.length) :
    (S.take (d + 1)).toFinset = insert (S.getD d default) (S.take d).toFinset := by
  rw [List.getD_eq_getElem S default h, ← List.take_concat_get' S d h,
    List.toFinset_append, Finset.union_comm]
  simp [Finset.insert_eq]

theorem card_insert_inter_insert {F G : Finset α} {a b : α}
    (ha : a ∉ F) (hb : b ∉ G) :
    (insert a F ∩ insert b G).card =
      (F ∩ G).card +
        (if a = b then 1
         else (if a ∈ G then 1 else 0) + (if b ∈ F then 1 else 0)) := by
  by_cases hab : a = b
  · subst hab
    have hset : insert a F ∩ insert a G = insert a (F ∩ G) := by
      ext x
      simp only [Finset.mem_inter, Finset.mem_insert]
      tauto
    rw [hset, if_pos rfl, Finset.card_insert_of_not_mem (by simp [ha])]
  · rw [if_neg hab]
    by_cases haG : a ∈ G <;> by_cases hbF : b ∈ F
    · have hset : insert a F ∩ insert b G = insert a (insert b (F ∩ G)) := by
        ext x
        simp only [Finset.mem_inter, Finset.mem_insert]
        constructor
        · rintro ⟨hx1 | hx1, hx2 | hx2⟩ <;> tauto
        · rintro (rfl | rfl | ⟨h1, h2⟩) <;> tauto
      rw [hset, Finset.card_insert_of_not_mem (by simp [ha, hab]),
        Finset.card_insert_of_not_mem (by simp [hb]), if_pos haG, if_pos hbF]
    · have hset : insert a F ∩ insert b G = insert a (F ∩ G) := by
        ext x
        simp only [Finset.mem_inter, Finset.mem_insert]
        constructor
        · rintro ⟨hx1 | hx1, hx2 | hx2⟩ <;> first | tauto | (subst hx2; tauto)
        · rintro (rfl | ⟨h1, h2⟩) <;> tauto
      rw [hset, Finset.card_insert_of_not_mem (by simp [ha]), if_pos haG,
        if_neg hbF]
    · have hset : insert a F ∩ insert b G = insert b (F ∩ G) := by
        ext x
        simp only [Finset.mem_inter, Finset.mem_insert]
        constructor
        · rintro ⟨hx1 | hx1, hx2 | hx2⟩ <;> first | tauto | (subst hx1; tauto)
        · rintro (rfl | ⟨h1, h2⟩) <;> tauto
      rw [hset, Finset.card_insert_of_not_mem (by simp [hb]), if_neg haG,
        if_pos hbF]
    · have hset : insert a F ∩ insert b G = F ∩ G := by
        ext x
        simp only [Finset.mem_inter, Finset.mem_insert]
        constructor
        · rintro ⟨hx1 | hx1, hx2 | hx2⟩ <;> first | tauto | (subst hx1; tauto) | (subst hx2; tauto)
        · rintro ⟨h1, h2⟩
          tauto
      rw [hset, if_neg haG, if_neg hbF]
      omega

theorem interCard_succ {S T : List α} (hS : S.Nodup) (hT : T.Nodup) {d : ℕ}
    (hdS : d < S.length) (hdT : d < T.length) :
    interCard S T (d + 1) = interCard S T d + tmp S T d := by
  unfold interCard
  rw [toFinset_take_succ hdS, toFinset_take_succ hdT,
    card_insert_inter_insert
      (fun hmem => getD_not_mem_take_self hS hdS (List.mem_toFinset.mp hmem))
      (fun hmem => getD_not_mem_take_self hT hdT (List.mem_toFinset.mp hmem))]
  unfold tmp
  simp only [List.mem_toFinset]
  by_cases hEq : S.getD d default = T.getD d default
  · have h1 : S.getD d default ∉ T.take d := by
      rw [hEq]; exact getD_not_mem_take_self hT hdT
    have h2 : T.getD d default ∉ S.take d := by
      rw [← hEq]; exact getD_not_mem_take_self hS hdS
    rw [if_pos hEq, if_pos hEq, if_neg h1, if_neg h2]
  · rw [if_neg hEq, if_neg hEq]
    omega

theorem A_succ_mul (S T : List α) (d : ℕ) :
    A S T (d + 1) * ((d : ℚ) + 2) = A S T d * ((d : ℚ) + 1) + (tmp S T (d + 1) : ℚ) := by
  rw [A, div_mul_cancel₀]
  positivity

theorem A_mul_eq_interCard {S T : List α} (hS : S.Nodup) (hT : T.Nodup) {d : ℕ}
    (hdS : d < S.length) (hdT : d < T.length) :
    A S T d * ((d : ℚ) + 1) = (interCard S T (d + 1) : ℚ) := by
  induction d with
  | zero =>
    rw [interCard_succ hS hT hdS hdT]
    have h0 : interCard S T 0 = 0 := by simp [interCard]
    rw [h0, A]
    unfold tmp
    simp only [List.take_zero, List.not_mem_nil, if_false]
    by_cases hEq : S.getD 0 default = T.getD 0 default <;> simp [hEq]
  | succ d ih =>
    have hcast : ((d + 1 : ℕ) : ℚ) + 1 = (d : ℚ) + 2 := by push_cast; ring
    rw [hcast, A_succ_mul, interCard_succ hS hT hdS hdT,
      ih (Nat.lt_of_succ_lt hdS) (Nat.lt_of_succ_lt hdT)]
    push_cast
    ring

theorem A_eq_interCard_div {S T : List α} (hS : S.Nodup) (hT : T.Nodup) {d : ℕ}
    (hdS : d < S.length) (hdT : d < T.length) :
    A S T d = (interCard S T (d + 1) : ℚ) / ((d : ℚ) + 1) := by
  have hne : ((d : ℚ) + 1) ≠ 0 := by positivity
  rw [eq_div_iff hne]
  exact A_mul_eq_interCard hS hT hdS hdT

theorem interCard_le (S T : List α) (n : ℕ) : interCard S T n ≤ n := by
  unfold interCard
  calc ((S.take n).toFinset ∩ (T.take n).toFinset).card
      ≤ (S.take n).toFinset.card := Finset.card_le_card Finset.inter_subset_left
    _ ≤ (S.take n).length := List.toFinset_card_le (S.take n)
    _ ≤ n := by rw [List.length_take]; omega

theorem A_nonneg_of_nodup {S T : List α} (hS : S.Nodup) (hT : T.Nodup) {d : ℕ}
    (hdS : d < S.length) (hdT : d < T.length) : 0 ≤ A S T d := by
  rw [A_eq_interCard_div hS hT hdS hdT]
  positivity

theorem A_le_one_of_nodup {S T : List α} (hS : S.Nodup) (hT : T.Nodup) {d : ℕ}
    (hdS : d < S.length) (hdT : d < T.length) : A S T d ≤ 1 := by
  rw [A_eq_interCard_div hS hT hdS hdT, div_le_one (by positivity)]
  exact_mod_cast interCard_le S T (d + 1)

theorem AO_one_eq_mean (S T : List α) (d : ℕ) :
    AO S T 1 d = (∑ i in Finset.range (d + 1), A S T i) / ((d : ℚ) + 1) := by
  induction d with
  | zero =>
    rw [AO, Finset.sum_range_one]
    simp [A, weights]
  | succ d ih =>
    have h1 : ((d : ℚ) + 1) ≠ 0 := by positivity
    rw [AO, if_pos rfl, ih, Finset.sum_range_succ (fun i => A S T i) (d + 1),
      div_mul_cancel₀ _ h1]
    push_cast
    ring

/-- C9: in the fixed-depth computation on duplicate-free lists, the agreement
entry at every in-range depth equals the size of the intersection of the two
depth-`(d+1)` prefixes divided by `d+1` (the `tmp` increments sum exactly to
the prefix-intersection size), hence lies in `[0, 1]`. -/
theorem claim_C9 (S T : List α) (d : ℕ) (hS : S.Nodup) (hT : T.Nodup)
    (hdS : d < S.length) (hdT : d < T.length) :
    A S T d = (interCard S T (d + 1) : ℚ) / ((d : ℚ) + 1) ∧
    0 ≤ A S T d ∧ A S T d ≤ 1 :=
  ⟨A_eq_interCard_div hS hT hdS hdT, A_nonneg_of_nodup hS hT hdS hdT,
   A_le_one_of_nodup hS hT hdS hdT⟩

/-- C9 (witness): instantiated at `S = [0, 1]`, `T = [1, 2]`, depth `d = 1`. -/
theorem claim_C9_witness :
    ([0, 1] : List ℕ).Nodup ∧ ([1, 2] : List ℕ).Nodup ∧
    (A ([0, 1] : List ℕ) [1, 2] 1 =
        (interCard ([0, 1] : List ℕ) [1, 2] (1 + 1) : ℚ) / (((1 : ℕ) : ℚ) + 1) ∧
      0 ≤ A ([0, 1] : List ℕ) [1, 2] 1 ∧ A ([0, 1] : List ℕ) [1, 2] 1 ≤ 1) :=
  ⟨by decide, by decide,
    claim_C9 [0, 1] [1, 2] 1 (by decide) (by decide) (by decide) (by decide)⟩

/-- C7: for duplicate-free lists, `p = 1` and any valid depth, fixed-depth RBO
returns the classical average overlap, i.e. the mean over `d = 0 .. k'-1` of
the per-depth agreement ratios (prefix-intersection size over `d+1`), and this
value lies in `[0, 1]`. -/
theorem claim_C7 (S T : List α) (k : Option ℕ) (ext : Bool)
    (hS : S.Nodup) (hT : T.Nodup) (hk : 0 < kEff S T k) :
    rbo S T k 1 ext =
      .ok ((∑ d in Finset.range (kEff S T k),
          (interCard S T (d + 1) : ℚ) / ((d : ℚ) + 1)) / (kEff S T k : ℚ)) ∧
    0 ≤ (∑ d in Finset.range (kEff S T k),
          (interCard S T (d + 1) : ℚ) / ((d : ℚ) + 1)) / (kEff S T k : ℚ) ∧
    (∑ d in Finset.range (kEff S T k),
          (interCard S T (d + 1) : ℚ) / ((d : ℚ) + 1)) / (kEff S T k : ℚ) ≤ 1 := by
  have hleS := kEff_le_left S T k
  have hleT := kEff_le_right S T k
  set m := kEff S T k with hm
  have hsum_eq : ∀ i ∈ Finset.range m,
      A S T i = (interCard S T (i + 1) : ℚ) / ((i : ℚ) + 1) := fun i hi =>
    A_eq_interCard_div hS hT (by simp at hi; omega) (by simp at hi; omega)
  refine ⟨?_, ?_, ?_⟩
  · rw [rbo, if_neg (by norm_num), if_neg (by omega), if_neg (by omega),
      if_neg (by norm_num), ← hm, AO_one_eq_mean S T (m - 1)]
    have hr : m - 1 + 1 = m := by omega
    have hc : ((m - 1 : ℕ) : ℚ) + 1 = (m : ℚ) := by
      calc ((m - 1 : ℕ) : ℚ) + 1 = ((m - 1 + 1 : ℕ) : ℚ) := by push_cast; ring
        _ = (m : ℚ) := by rw [hr]
    rw [hr, hc, Finset.sum_congr rfl hsum_eq]
  · apply div_nonneg
    · exact Finset.sum_nonneg fun i _ => by positivity
    · positivity
  · rw [div_le_one (by exact_mod_cast hk)]
    calc (∑ d in Finset.range m, (interCard S T (d + 1) : ℚ) / ((d : ℚ) + 1))
        ≤ ∑ _d in Finset.range m, (1 : ℚ) := by
          refine Finset.sum_le_sum fun i _ => ?_
          rw [div_le_one (by positivity)]
          exact_mod_cast interCard_le S T (i + 1)
      _ = (m : ℚ) := by simp

/-- C7 (witness): instantiated at `S = [0, 1]`, `T = [1, 0]`, `k = None`,
`p = 1`, `ext = false`. -/
theorem claim_C7_witness :
    ([0, 1] : List ℕ).Nodup ∧ ([1, 0] : List ℕ).Nodup ∧
    0 < kEff ([0, 1] : List ℕ) [1, 0] none ∧
    rbo ([0, 1] : List ℕ) [1, 0] none 1 false =
      .ok ((∑ d in Finset.range (kEff ([0, 1] : List ℕ) [1, 0] none),
        (interCard ([0, 1] : List ℕ) [1, 0] (d + 1) : ℚ) / ((d : ℚ) + 1)) /
        (kEff ([0, 1] : List ℕ) [1, 0] none : ℚ)) :=
  ⟨by decide, by decide, by decide,
    (claim_C7 [0, 1] [1, 0] none false (by decide) (by decide) (by decide)).1⟩


/-! ### Equal-length lists: the extrapolated path refines the fixed-depth one -/

theorem mem_take_succ_iff {T : List α} {d : ℕ} (h : d < T.length) (x : α) :
    x ∈ T.take (d + 1) ↔ x ∈ T.take d ∨ x = T.getD d default := by
  rw [← List.take_concat_get' T d h, List.mem_append,
    List.getD_eq_getElem T default h]
  simp

theorem incrExt_eq_tmp {S T : List α} (hS : S.Nodup) (hT : T.Nodup) {s d : ℕ}
    (hd : d < s) (hdS : d < S.length) (hdT : d < T.length) :
    incrExt S T s d = tmp S T d := by
  unfold incrExt tmp
  rw [if_pos hd]
  by_cases hEq : S.getD d default = T.getD d default
  · rw [if_pos hEq,
      if_neg (fun hm => getD_not_mem_take_self hT hdT (hEq ▸ hm)),
      if_neg (fun hm => getD_not_mem_take_self hS hdS (hEq ▸ hm)),
      if_pos hEq]
  · rw [if_neg hEq]
    have e1 : (S.getD d default ∈ T.take (d + 1)) ↔ (S.getD d default ∈ T.take d) := by
      rw [mem_take_succ_iff hdT]
      exact or_iff_left hEq
    have e2 : (T.getD d default ∈ S.take (d + 1)) ↔ (T.getD d default ∈ S.take d) := by
      rw [mem_take_succ_iff hdS]
      exact or_iff_left (fun hc : T.getD d default = S.getD d default => hEq hc.symm)
    rw [if_neg hEq]
    simp only [e1, e2]
    omega

theorem Xext_eq_A_mul {S T : List α} (hS : S.Nodup) (hT : T.Nodup) {s d : ℕ}
    (hd : d < s) (hdS : d < S.length) (hdT : d < T.length) :
    (Xext S T s d : ℚ) = A S T d * ((d : ℚ) + 1) := by
  induction d with
  | zero =>
    rw [Xext, A]
    by_cases hEq : S.getD 0 default = T.getD 0 default <;> simp [hEq]
  | succ d ih =>
    have hcast : ((d + 1 : ℕ) : ℚ) + 1 = (d : ℚ) + 2 := by push_cast; ring
    rw [hcast, A_succ_mul, Xext,
      incrExt_eq_tmp hS hT hd hdS hdT,
      ← ih (Nat.lt_of_succ_lt hd) (Nat.lt_of_succ_lt hdS) (Nat.lt_of_succ_lt hdT)]
    push_cast
    ring

theorem card_toFinset_take {S : List α} (hS : S.Nodup) {n : ℕ} (h : n ≤ S.length) :
    (S.take n).toFinset.card = n := by
  rw [List.toFinset_card_of_nodup (List.Nodup.sublist (List.take_sublist n S) hS),
    List.length_take]
  omega

theorem Aext_eq_A {S T : List α} (hS : S.Nodup) (hT : T.Nodup) {s d : ℕ}
    (hd : d < s) (hdS : d < S.length) (hdT : d < T.length) :
    Aext S T s d = A S T d := by
  rcases Nat.eq_zero_or_pos d with rfl | hpos
  · rw [Aext, if_pos rfl, Xext, A]
    by_cases hEq : S.getD 0 default = T.getD 0 default <;> simp [hEq]
  · rw [Aext, if_neg (by omega), if_pos hd,
      card_toFinset_take hS (by omega), card_toFinset_take hT (by omega),
      Xext_eq_A_mul hS hT hd hdS hdT]
    have hne : ((d : ℚ) + 1) ≠ 0 := by positivity
    push_cast
    field_simp
    ring

theorem rboArr_eq_AO {S T : List α} (hS : S.Nodup) (hT : T.Nodup) {p : ℚ}
    (hp : p ≠ 1) {s d : ℕ} (hd : d < s) (hdS : d < S.length) (hdT : d < T.length) :
    rboArr S T s p d = AO S T p d := by
  induction d with
  | zero =>
    rw [rboArr, AO, Aext, if_pos rfl, Xext, weights, if_neg hp]
    by_cases hEq : S.getD 0 default = T.getD 0 default <;> simp [hEq]
  | succ d ih =>
    rw [rboArr, AO, if_neg hp, weights, if_neg hp,
      ih (Nat.lt_of_succ_lt hd) (Nat.lt_of_succ_lt hdS) (Nat.lt_of_succ_lt hdT),
      Aext_eq_A hS hT hd hdS hdT]

/-- C2 (counterexample): for equal length `l = 1` the claim fails: on
`S = T = [0]` the full extrapolated computation hits the unbound `ext_term`
and errors, while the fixed-depth computation with `k = 1`, `ext = true`
returns `1`. -/
theorem claim_C2_counterexample :
    rbo_ext ([0] : List ℕ) [0] (1/2) = .error .unboundLocalError ∧
    rbo ([0] : List ℕ) [0] (some 1) (1/2) true = .ok 1 := by
  constructor
  · rfl
  · norm_num [rbo, kEff, AO, A, weights, List.getD]

/-- C2 (amended): for duplicate-free lists of equal length `l ≥ 2` (rather
than `l ≥ 1`) and `0 < p < 1`, the full extrapolated computation returns, in
exact arithmetic, the same value as the fixed-depth computation at depth
`k = l` with `ext = true`. -/
theorem claim_C2 (S T : List α) (p : ℚ) (hS : S.Nodup) (hT : T.Nodup)
    (hlen : S.length = T.length) (h2 : 2 ≤ S.length)
    (hp0 : 0 < p) (hp1 : p < 1) :
    rbo_ext S T p = rbo S T (some S.length) p true := by
  have hkeff : kEff S T (some S.length) = S.length := by
    simp [kEff, hlen]
  rw [rbo, if_neg (by rw [not_and_or]; right; simp [hp0, hp1]),
    if_neg (by omega), if_neg (by omega), if_pos ⟨rfl, hp1⟩, hkeff,
    rbo_ext, if_neg (by omega)]
  unfold extCompute
  rw [if_neg (by omega), if_neg (by omega), ← hlen]
  have hd : S.length - 1 < S.length := by omega
  have hsucc : S.length - 1 + 1 = S.length := by omega
  rw [rboArr_eq_AO hS hT (ne_of_lt hp1) hd hd (by omega),
    disjointAcc_eq_zero S T S.length p (S.length - 1) hd,
    extTerm, if_pos hd,
    Aext_eq_A hS hT hd hd (by omega), hsucc]
  rw [add_zero]

/-- C2 (witness): the amended claim instantiated at `S = [0, 1]`,
`T = [1, 0]`, `p = 1/2`. -/
theorem claim_C2_witness :
    ([0, 1] : List ℕ).Nodup ∧ ([1, 0] : List ℕ).Nodup ∧
    ([0, 1] : List ℕ).length = ([1, 0] : List ℕ).length ∧
    2 ≤ ([0, 1] : List ℕ).length ∧
    rbo_ext ([0, 1] : List ℕ) [1, 0] (1/2) =
      rbo ([0, 1] : List ℕ) [1, 0] (some ([0, 1] : List ℕ).length) (1/2) true :=
  ⟨by decide, by decide, rfl, by decide,
    claim_C2 [0, 1] [1, 0] (1/2) (by decide) (by decide) rfl (by decide)
      (by norm_num) (by norm_num)⟩

end RBO
